import Mathlib

/-!
Verification development for the `alakazam` audio fingerprinting engine
(`fingerprinter-rust`).  The Rust sources are embedded shallowly:

* `f32` sample and magnitude values are modelled as rationals (`ℚ`); the
  claims settled here depend on comparison order, integer casts and
  structural behaviour, not on floating-point rounding.
* The FFT magnitude stage (`compute_spectrum`: Hamming scalar, forward FFT,
  complex norms) is numeric `f32` code with no arithmetic content relevant to
  the claims; it is abstracted as a parameter `fftMag : List ℚ → List ℚ`.
  The one property the Rust code guarantees and the claims use is
  `(fftMag w).length = w.length / 2` (the code keeps `buffer.len() / 2`
  magnitudes), captured by the predicate `SpectrumLen`.
* Rust `HashMap` iteration order is unspecified; everywhere the source
  iterates a `HashMap` the model takes the enumeration order as an explicit
  parameter constrained to be a permutation of the present keys.
* A Rust panic (slice out of range, index out of range, arithmetic
  underflow) is modelled as `Option.none`.
-/

set_option maxRecDepth 8000

/-! ### fingerprint.rs: window schedule

`generate_fingerprint` iterates
`for window_start in (0..audio_data.len().saturating_sub(window_size)).step_by(hop_size)`
with `window_size = 1024`, `hop_size = 512`.  `windowStarts len` is exactly
the list of iterated start offsets. -/

/-- Start offsets produced by `(0..len.saturating_sub(1024)).step_by(512)`. -/
def windowStarts (len : ℕ) : List ℕ :=
  (List.range ((len - 1024 + 511) / 512)).map (fun k => k * 512)

/-! ### fingerprint.rs: `freq_to_bin` and `create_frequency_bands` -/

/-- `freq_to_bin`: `(freq / freq_resolution).round() as usize`.
`f32::round` rounds half away from zero; for the nonnegative values used
here that is `⌊x + 1/2⌋`. -/
def freq_to_bin (freq : ℚ) (freqResolution : ℚ) : ℕ :=
  (⌊freq / freqResolution + 1/2⌋).toNat

/-- `models.rs` `FrequencyBands`: six `(start_bin, end_bin)` pairs. -/
structure FrequencyBands where
  bass : ℕ × ℕ
  low_mid : ℕ × ℕ
  mid : ℕ × ℕ
  high_mid : ℕ × ℕ
  treble : ℕ × ℕ
  presence : ℕ × ℕ

/-- `create_frequency_bands`: hard Hz edges converted to bins at
resolution `sample_rate / fft_size`. -/
def create_frequency_bands (fftSize : ℕ) (sampleRate : ℕ) : FrequencyBands :=
  let freqResolution : ℚ := (sampleRate : ℚ) / (fftSize : ℚ)
  { bass := (freq_to_bin 20 freqResolution, freq_to_bin 300 freqResolution)
    low_mid := (freq_to_bin 300 freqResolution, freq_to_bin 800 freqResolution)
    mid := (freq_to_bin 800 freqResolution, freq_to_bin 3000 freqResolution)
    high_mid := (freq_to_bin 3000 freqResolution, freq_to_bin 5000 freqResolution)
    treble := (freq_to_bin 5000 freqResolution, freq_to_bin 8000 freqResolution)
    presence := (freq_to_bin 8000 freqResolution, freq_to_bin 20000 freqResolution) }

/-- A peak `(frequency_bin, amplitude, band_name)`. -/
abbrev Peak := ℕ × ℚ × String

/-- One entry of the `band_configs` array:
`(band_name, (start, end), max_peaks, threshold_multiplier)`. -/
abbrev BandCfg := String × (ℕ × ℕ) × ℕ × ℚ

/-- The `band_configs` array of `extract_peaks`. -/
def band_configs (bands : FrequencyBands) : List BandCfg :=
  [("bass", bands.bass, 3, 11/10),
   ("low_mid", bands.low_mid, 4, 1),
   ("mid", bands.mid, 4, 1),
   ("high_mid", bands.high_mid, 2, 6/5),
   ("treble", bands.treble, 1, 13/10),
   ("presence", bands.presence, 1, 7/5)]

/-! ### fingerprint.rs: `extract_peaks` -/

/-- Value of `window.iter().max_by(partial_cmp).unwrap()` (the maximal value;
the list is always nonempty at the call site). -/
def listMax : List ℚ → ℚ
  | [] => 0
  | x :: xs => xs.foldl max x

/-- Descending-by-amplitude order used by
`band_peaks.sort_by(|a, b| b.1.partial_cmp(&a.1).unwrap())`. -/
def ampGe (a b : Peak) : Prop := b.2.1 ≤ a.2.1

instance : DecidableRel ampGe := fun a b => inferInstanceAs (Decidable (b.2.1 ≤ a.2.1))

instance : IsTotal Peak ampGe := ⟨fun a b => le_total b.2.1 a.2.1⟩

instance : IsTrans Peak ampGe := ⟨fun _ _ _ hab hbc => le_trans hbc hab⟩

/-- Peak detection for one `band_configs` entry (the body of the
`for (band_name, (start, end), max_peaks, threshold_multiplier)` loop).
`none` models a panic:
* `&spectrum[start..end.min(spectrum.len())]` panics when
  `start > end.min(len)`;
* the loop `for i in window_size..band_spectrum.len() - window_size`
  (with `window_size = 3`) underflows, or its first window slice
  `[i-3..i+4]` is out of range, when `band_spectrum.len() < 3`. -/
def detectBandPeaks (spectrum : List ℚ) (cfg : BandCfg) : Option (List Peak) :=
  let bandName := cfg.1
  let start := cfg.2.1.1
  let stopC := min cfg.2.1.2 spectrum.length
  let maxPeaks := cfg.2.2.1
  let thresholdMultiplier := cfg.2.2.2
  if start > stopC then none
  else
    let bandSpectrum := (spectrum.drop start).take (stopC - start)
    let bandThreshold := bandSpectrum.sum / (bandSpectrum.length : ℚ) * thresholdMultiplier
    if bandSpectrum.length < 3 then none
    else
      let bandPeaks := (List.range' 3 (bandSpectrum.length - 6)).filterMap (fun i =>
        let w := (bandSpectrum.drop (i - 3)).take 7
        let c := bandSpectrum.getD i 0
        if c > bandThreshold ∧ listMax w ≤ c then some ((start + i, c, bandName) : Peak)
        else none)
      some ((List.insertionSort ampGe bandPeaks).take maxPeaks)

/-- Accumulator step of `extract_peaks` over the `band_configs` array
(`peaks.extend(band_peaks)`); a panic in any band fails the whole call. -/
def bandStep (spectrum : List ℚ) (acc : Option (List Peak)) (cfg : BandCfg) :
    Option (List Peak) :=
  match acc with
  | none => none
  | some ps =>
    match detectBandPeaks spectrum cfg with
    | none => none
    | some bp => some (ps ++ bp)

/-- `extract_peaks(spectrum, sample_rate)`; `fft_size = spectrum.len() * 2`. -/
def extract_peaks (spectrum : List ℚ) (sampleRate : ℕ) : Option (List Peak) :=
  (band_configs (create_frequency_bands (spectrum.length * 2) sampleRate)).foldl
    (bandStep spectrum) (some [])

/-! ### fingerprint.rs: `peaks_to_hashes` -/

/-- `band_name_to_id`. -/
def band_name_to_id (bandName : String) : ℕ :=
  match bandName with
  | "bass" => 1
  | "low_mid" => 2
  | "mid" => 3
  | "high_mid" => 4
  | "treble" => 5
  | "presence" => 6
  | _ => 0

/-- Rust `as u8` on an `f32`: the cast saturates (clamps) to `[0, 255]`,
truncating toward zero. -/
def rustFloatToU8 (x : ℚ) : ℕ :=
  if x < 0 then 0 else min 255 (⌊x⌋.toNat)

/-- The packed 64-bit hash for one peak pair `(freq1, amp1)`, `(freq2, amp2)`
(`freq1` is the lower-frequency peak):
`amp_ratio = (amp1 / amp2 * 100.0) as u8` (saturating float cast),
`freq_diff = (freq2 as i32 - freq1 as i32).abs() as u16` (truncating cast),
`freq_sum = (freq1 + freq2) as u16` (truncating cast).
The model assumes bins below `2^31` (in the pipeline they are below the
spectrum length), where the `usize as i32` conversions are the identity. -/
def mkHash (bandId : ℕ) (p q : ℕ × ℚ) : ℕ :=
  let ampRatio := rustFloatToU8 (p.2 / q.2 * 100)
  let freqDiff := (((q.1 : ℤ) - (p.1 : ℤ)).natAbs) % 65536
  let freqSum := (p.1 + q.1) % 65536
  (bandId <<< 58) ||| (freqDiff <<< 42) ||| (ampRatio <<< 34) ||| (freqSum <<< 18)

/-- The double loop `for i in 0..n { for j in (i+1)..n { … } }` emitting one
hash per pair `(i, j)` with `i < j`, in that iteration order. -/
def pairHashes (bandId : ℕ) : List (ℕ × ℚ) → List ℕ
  | [] => []
  | p :: rest => (rest.map (fun q => mkHash bandId p q)) ++ pairHashes bandId rest

/-- Ascending-by-frequency-bin order used by
`sorted_peaks.sort_by_key(|&(freq, _)| freq)`. -/
def freqLe (a b : ℕ × ℚ) : Prop := a.1 ≤ b.1

instance : DecidableRel freqLe := fun a b => inferInstanceAs (Decidable (a.1 ≤ b.1))

instance : IsTotal (ℕ × ℚ) freqLe := ⟨fun a b => le_total a.1 b.1⟩

instance : IsTrans (ℕ × ℚ) freqLe := ⟨fun _ _ _ hab hbc => le_trans hab hbc⟩

/-- The `band_groups` entry for key `k`: peaks with that band name, in
insertion order, projected to `(freq, amp)` — the `HashMap` grouping loop
pushes peaks in their list order. -/
def groupOf (peaks : List Peak) (k : String) : List (ℕ × ℚ) :=
  (peaks.filter (fun p => p.2.2 == k)).map (fun p => (p.1, p.2.1))

/-- The set of keys of `band_groups`, as the deduplicated list of band names
occurring in `peaks`. -/
def keysOf (peaks : List Peak) : List String :=
  (peaks.map (fun p => p.2.2)).dedup

/-- `peaks_to_hashes`, with the unspecified `HashMap` iteration order over
`band_groups` made explicit as `order` (intended: a permutation of
`keysOf peaks`). -/
def peaks_to_hashes (order : List String) (peaks : List Peak) : List ℕ :=
  order.flatMap (fun k =>
    pairHashes (band_name_to_id k) (List.insertionSort freqLe (groupOf peaks k)))

/-! ### fingerprint.rs: `generate_fingerprint` -/

/-- A pick function assigns to each window's peak list the `HashMap`
iteration order of its `band_groups`; a fresh map is built per window,
so the order may vary per window and per call. -/
def ValidPick (pick : List Peak → List String) : Prop :=
  ∀ p : List Peak, (pick p).Perm (keysOf p)

/-- `(fftMag w).length = w.length / 2`: the property of the abstracted FFT
magnitude stage (`compute_spectrum` keeps `buffer.len() / 2` magnitudes). -/
def SpectrumLen (fftMag : List ℚ → List ℚ) : Prop :=
  ∀ w : List ℚ, (fftMag w).length = w.length / 2

/-- Processing of one full window: spectrum, peaks, hashes (a peak-stage
panic propagates). -/
def processWindow (pick : List Peak → List String) (fftMag : List ℚ → List ℚ)
    (sampleRate : ℕ) (window : List ℚ) : Option (List ℕ) :=
  (extract_peaks (fftMag window) sampleRate).map
    (fun peaks => peaks_to_hashes (pick peaks) peaks)

/-- Body of the window loop of `generate_fingerprint`:
`window = &audio_data[window_start..(window_start + 1024).min(len)]`,
processed only `if window.len() == window_size`. -/
def processStart (pick : List Peak → List String) (fftMag : List ℚ → List ℚ)
    (audioData : List ℚ) (sampleRate : ℕ) (acc : Option (List ℕ)) (ws : ℕ) :
    Option (List ℕ) :=
  match acc with
  | none => none
  | some fps =>
    let window := (audioData.drop ws).take 1024
    if window.length = 1024 then
      match processWindow pick fftMag sampleRate window with
      | none => none
      | some hs => some (fps ++ hs)
    else some fps

/-- `generate_fingerprint(audio_data, sample_rate)`. -/
def generate_fingerprint (pick : List Peak → List String)
    (fftMag : List ℚ → List ℚ) (audioData : List ℚ) (sampleRate : ℕ) :
    Option (List ℕ) :=
  (windowStarts audioData.length).foldl
    (processStart pick fftMag audioData sampleRate) (some [])

/-! ### storage.rs: `search_song` -/

/-- `models.rs` `SongInfo`. -/
structure SongInfo where
  name : String
  singer : String
deriving DecidableEq

/-- `song_matches.entry(song_id).or_insert((0, Vec::new()))` followed by
`entry.0 += 1; entry.1.push(*hash)`, on an association list keyed by
song id (`HashMap` contents are key-unique; enumeration order is handled
separately). -/
def bumpEntry : List (ℕ × ℕ × List ℕ) → ℕ → ℕ → List (ℕ × ℕ × List ℕ)
  | [], sid, h => [(sid, 1, [h])]
  | (k, c, hs) :: rest, sid, h =>
    if k = sid then (k, c + 1, hs ++ [h]) :: rest
    else (k, c, hs) :: bumpEntry rest sid h

/-- Inner loop of the scan: `for song_id in song_ids { … }` for one query
hash, where `song_ids = conn.smembers(hash_key)` (the posting set). -/
def processHash (postings : ℕ → List ℕ) (acc : List (ℕ × ℕ × List ℕ)) (h : ℕ) :
    List (ℕ × ℕ × List ℕ) :=
  (postings h).foldl (fun a sid => bumpEntry a sid h) acc

/-- The accumulation scan `for hash in query_fingerprints { … }`. -/
def accumulateMatches (postings : ℕ → List ℕ) (qs : List ℕ) :
    List (ℕ × ℕ × List ℕ) :=
  qs.foldl (processHash postings) []

/-- The duplicate-match penalty factor. -/
def match_penalty (r : ℚ) : ℚ :=
  if r > 2 then 4/5 else if r > 3/2 then 9/10 else 1

/-- Scoring of one `song_matches` entry `(song_id, (match_count,
matched_hashes))`: songs whose metadata record is missing (or does not
parse) are skipped; `confidence` is pushed only when positive. -/
def scoreEntry (songTable : ℕ → Option SongInfo) (totalHashes : ℕ)
    (e : ℕ × ℕ × List ℕ) : Option (SongInfo × ℚ) :=
  match songTable e.1 with
  | none => none
  | some info =>
    let uniqueMatches : ℚ := (e.2.2.length : ℚ)
    let baseConfidence := uniqueMatches / (totalHashes : ℚ)
    let matchRatioVal := (e.2.1 : ℚ) / uniqueMatches
    let confidence :=
      if baseConfidence < 1/10 then 0
      else baseConfidence * match_penalty matchRatioVal
    if confidence > 0 then some (info, confidence) else none

/-- Descending-by-confidence order used by
`results.sort_by(|a, b| b.1.partial_cmp(&a.1).unwrap())`. -/
def confGe (a b : SongInfo × ℚ) : Prop := b.2 ≤ a.2

instance : DecidableRel confGe := fun a b => inferInstanceAs (Decidable (b.2 ≤ a.2))

instance : IsTotal (SongInfo × ℚ) confGe := ⟨fun a b => le_total b.2 a.2⟩

instance : IsTrans (SongInfo × ℚ) confGe := ⟨fun _ _ _ hab hbc => le_trans hbc hab⟩

/-- `search_song(query_fingerprints)`.  `es` is the enumeration of the
`song_matches` map in the unspecified `HashMap` iteration order (intended:
a permutation of `accumulateMatches postings qs`). -/
def search_song (songTable : ℕ → Option SongInfo) (qs : List ℕ)
    (es : List (ℕ × ℕ × List ℕ)) : List (SongInfo × ℚ) :=
  List.insertionSort confGe (es.filterMap (scoreEntry songTable qs.length))

/-! ### core.rs / audio.rs: WAV sample normalisation

`create_hashes_from_wav` (and identically `AudioLoader::load_from_wav`)
converts decoded samples to `f32`:
float samples pass through; integer samples are divided by
`i16::MAX` (16-bit), `1 << 23` (24-bit), or `i32::MAX` (32-bit); any other
integer bit depth returns `Err("Unsupported bit depth: …")`. -/

/-- Decoded raw samples: integer PCM or float PCM. -/
inductive RawAudio where
  | intSamples (l : List ℤ)
  | floatSamples (l : List ℚ)

/-- The sample-normalisation `match` of `create_hashes_from_wav` /
`load_from_wav` over `(spec.sample_format, spec.bits_per_sample)`. -/
def normalizeSamples (raw : RawAudio) (bitsPerSample : ℕ) :
    Except String (List ℚ) :=
  match raw with
  | .floatSamples l => .ok l
  | .intSamples l =>
    if bitsPerSample = 16 then .ok (l.map (fun s => (s : ℚ) / 32767))
    else if bitsPerSample = 24 then .ok (l.map (fun s => (s : ℚ) / 8388608))
    else if bitsPerSample = 32 then .ok (l.map (fun s => (s : ℚ) / 2147483647))
    else .error ("Unsupported bit depth: " ++ toString bitsPerSample)

/-! ### wasm.rs: `fingerprint_common` sample preprocessing

After decoding the byte buffer into `f32` samples, the WASM entry points run
`if audio_f32.len() % 2 == 0 { audio_f32 = audio_f32.chunks(2).map(|c| (c[0] + c[1]) / 2.0).collect(); }`
before fingerprinting.  No channel count is consulted. -/

/-- `chunks(2).map(|chunk| (chunk[0] + chunk[1]) / 2.0)`: `none` models the
`chunk[1]` index panic on a trailing singleton chunk (unreachable under the
even-length guard). -/
def avgPairs : List ℚ → Option (List ℚ)
  | [] => some []
  | [_] => none
  | a :: b :: rest =>
    match avgPairs rest with
    | none => none
    | some l => some (((a + b) / 2) :: l)

/-- The conditional halving step of `fingerprint_common`. -/
def wasmDownmix (audio : List ℚ) : Option (List ℚ) :=
  if audio.length % 2 = 0 then avgPairs audio else some audio

/-! ### Auxiliary definitions used by the theorems -/

/-- The canonical pick function: enumerate `band_groups` keys in first-peak
order (one admissible `HashMap` enumeration). -/
def pickCanon (p : List Peak) : List String := keysOf p

/-- A concrete admissible FFT magnitude stage: the all-zero spectrum of the
correct length (e.g. the spectrum of an all-zero window). -/
def fftMag0 (w : List ℚ) : List ℚ := List.replicate (w.length / 2) 0

/-- Geometric well-formedness of one band at spectrum length `L`: the slice
`[start..end.min(L)]` is in range and has at least 3 bins. -/
def bandCfgOk (L : ℕ) (cfg : BandCfg) : Prop :=
  cfg.2.1.1 ≤ min cfg.2.1.2 L ∧ 3 ≤ min cfg.2.1.2 L - cfg.2.1.1

instance (L : ℕ) (cfg : BandCfg) : Decidable (bandCfgOk L cfg) :=
  inferInstanceAs (Decidable (_ ∧ _))

/-- All six bands are well-formed for sample rate `sampleRate` at the fixed
window size 1024 (spectrum length 512). -/
def bandsOk (sampleRate : ℕ) : Prop :=
  ∀ cfg ∈ band_configs (create_frequency_bands 1024 sampleRate), bandCfgOk 512 cfg

instance (sampleRate : ℕ) : Decidable (bandsOk sampleRate) :=
  inferInstanceAs (Decidable (∀ cfg ∈ _, _))

/-- The six band names, in `band_configs` order. -/
def sixBandNames : List String :=
  ["bass", "low_mid", "mid", "high_mid", "treble", "presence"]

/-- `max_peaks` per band name (0 for names never produced). -/
def maxPeaksOf (k : String) : ℕ :=
  match k with
  | "bass" => 3
  | "low_mid" => 4
  | "mid" => 4
  | "high_mid" => 2
  | "treble" => 1
  | "presence" => 1
  | _ => 0

/-- Sum of `max_peaks` over the configs of a given band name. -/
def capSum (k : String) (L : List BandCfg) : ℕ :=
  ((L.filter (fun cfg => cfg.1 == k)).map (fun cfg => cfg.2.2.1)).sum

/-- A concrete 512-bin spectrum with two equal spikes at bins 13 and 20
(inside the `mid` band at sample rate 102400, where bins are 100 Hz wide). -/
def specW : List ℚ :=
  List.replicate 13 0 ++ 10 :: (List.replicate 6 0 ++ 10 :: List.replicate 491 0)

/-- An admissible FFT magnitude stage returning `specW` on full windows. -/
def fftMagW (w : List ℚ) : List ℚ :=
  if w.length = 1024 then specW else List.replicate (w.length / 2) 0

/-! ### Helper lemmas: window schedule -/

theorem mem_windowStarts (len s : ℕ) :
    s ∈ windowStarts len ↔ s % 512 = 0 ∧ s + 1024 < len := by
  unfold windowStarts
  simp only [List.mem_map, List.mem_range]
  constructor
  · rintro ⟨k, hk, rfl⟩
    omega
  · rintro ⟨h5, hlt⟩
    exact ⟨s / 512, by omega, by omega⟩

theorem windowStarts_1024 : windowStarts 1024 = [] := by
  unfold windowStarts
  norm_num

theorem windowStarts_of_lt {len : ℕ} (h : len < 1025) : windowStarts len = [] := by
  unfold windowStarts
  have : (len - 1024 + 511) / 512 = 0 := by omega
  rw [this]
  rfl

/-- Every iterated window has exactly 1024 samples, so the
`if window.len() == window_size` check always passes. -/
theorem window_length_of_mem {audio : List ℚ} {s : ℕ}
    (h : s ∈ windowStarts audio.length) :
    ((audio.drop s).take 1024).length = 1024 := by
  rw [mem_windowStarts] at h
  simp only [List.length_take, List.length_drop]
  omega

/-! ### Helper lemmas: Option-valued folds -/

theorem foldl_processStart_none (pick : List Peak → List String)
    (fftMag : List ℚ → List ℚ) (audio : List ℚ) (rate : ℕ) (L : List ℕ) :
    L.foldl (processStart pick fftMag audio rate) none = none := by
  induction L with
  | nil => rfl
  | cons x xs ih => simpa [processStart] using ih

theorem foldl_bandStep_none (spectrum : List ℚ) (L : List BandCfg) :
    L.foldl (bandStep spectrum) none = none := by
  induction L with
  | nil => rfl
  | cons x xs ih => simpa [bandStep] using ih

/-! ### Claim C3: the window schedule -/

/-- Claim C3 counterexample: the claim says a window is processed for every
start offset `s` with `s % 512 = 0` and `s + 1024 ≤ |signal|`, and that a
signal of length exactly 1024 yields exactly one processed window.  In the
code the loop range is `0..len.saturating_sub(1024)` (exclusive), so the
offset `s = 0` — which satisfies the claim's condition for `len = 1024` — is
never iterated, and a length-1024 signal yields zero processed windows and
zero hashes. -/
theorem C3_counterexample :
    ((0 : ℕ) % 512 = 0 ∧ 0 + 1024 ≤ 1024 ∧ (0 : ℕ) ∉ windowStarts 1024)
    ∧ generate_fingerprint pickCanon fftMag0 (List.replicate 1024 (0 : ℚ)) 44100
        = some [] := by
  refine ⟨⟨rfl, by norm_num, by rw [windowStarts_1024]; simp⟩, ?_⟩
  rw [generate_fingerprint]
  simp [windowStarts_1024]

/-- Claim C3, amended: in `generate_fingerprint`, one window of 1024 samples
is processed for every start offset `s ∈ {0, 512, 1024, …}` with
`s + 1024 < |signal|` (strictly); the aligned window ending exactly at the
signal end is dropped, so a signal of length exactly 1024 yields zero
processed windows.  Every iterated offset yields a full window of exactly
1024 samples. -/
theorem C3_window_schedule (audio : List ℚ) (s : ℕ) :
    s ∈ windowStarts audio.length ↔
      s % 512 = 0 ∧ s + 1024 < audio.length
        ∧ ((audio.drop s).take 1024).length = 1024 := by
  constructor
  · intro h
    have h2 := (mem_windowStarts audio.length s).mp h
    exact ⟨h2.1, h2.2, window_length_of_mem h⟩
  · intro h
    exact (mem_windowStarts audio.length s).mpr ⟨h.1, h.2.1⟩

/-! ### Helper lemmas: hash packing -/

theorem pack_fields (a d r s : ℕ) (hd : d < 65536) (hr : r < 256)
    (hs : s < 65536) :
    (a <<< 58) ||| (d <<< 42) ||| (r <<< 34) ||| (s <<< 18)
      = a * 2 ^ 58 + d * 2 ^ 42 + r * 2 ^ 34 + s * 2 ^ 18 := by
  have hs' : s * 2 ^ 18 < 2 ^ 34 := by
    calc s * 2 ^ 18 < 65536 * 2 ^ 18 := by
          exact Nat.mul_lt_mul_of_lt_of_le hs (le_refl _) (by norm_num)
      _ = 2 ^ 34 := by norm_num
  have h1 : (r <<< 34) ||| (s <<< 18) = r * 2 ^ 34 + s * 2 ^ 18 := by
    rw [Nat.shiftLeft_eq, Nat.shiftLeft_eq, Nat.mul_comm r,
      ← Nat.mul_add_lt_is_or hs' r]
  have h2' : r * 2 ^ 34 + s * 2 ^ 18 < 2 ^ 42 := by
    have : r * 2 ^ 34 ≤ 255 * 2 ^ 34 := Nat.mul_le_mul_right _ (by omega)
    calc r * 2 ^ 34 + s * 2 ^ 18 ≤ 255 * 2 ^ 34 + s * 2 ^ 18 := by omega
      _ < 255 * 2 ^ 34 + 2 ^ 34 := by omega
      _ = 2 ^ 42 := by norm_num
  have h2 : (d <<< 42) ||| ((r <<< 34) ||| (s <<< 18))
      = d * 2 ^ 42 + (r * 2 ^ 34 + s * 2 ^ 18) := by
    rw [h1, Nat.shiftLeft_eq, Nat.mul_comm d, ← Nat.mul_add_lt_is_or h2' d]
  have h3' : d * 2 ^ 42 + (r * 2 ^ 34 + s * 2 ^ 18) < 2 ^ 58 := by
    have : d * 2 ^ 42 ≤ 65535 * 2 ^ 42 := Nat.mul_le_mul_right _ (by omega)
    calc d * 2 ^ 42 + (r * 2 ^ 34 + s * 2 ^ 18)
        ≤ 65535 * 2 ^ 42 + (r * 2 ^ 34 + s * 2 ^ 18) := by omega
      _ < 65535 * 2 ^ 42 + 2 ^ 42 := by omega
      _ = 2 ^ 58 := by norm_num
  calc (a <<< 58) ||| (d <<< 42) ||| (r <<< 34) ||| (s <<< 18)
      = (a <<< 58) ||| ((d <<< 42) ||| ((r <<< 34) ||| (s <<< 18))) := by
        rw [Nat.lor_assoc, Nat.lor_assoc]
    _ = a * 2 ^ 58 + (d * 2 ^ 42 + (r * 2 ^ 34 + s * 2 ^ 18)) := by
        rw [h2, Nat.shiftLeft_eq, Nat.mul_comm a, ← Nat.mul_add_lt_is_or h3' a]
    _ = a * 2 ^ 58 + d * 2 ^ 42 + r * 2 ^ 34 + s * 2 ^ 18 := by ring

/-! ### Claim C4: packed-field overflow behaviour -/

/-- Claim C4 counterexample: the claim says `freq_diff` saturates to the
16-bit maximum and `amp_ratio` wraps modulo 256 (300 packing as 44).
In the code `amp_ratio` is a Rust float-to-`u8` `as` cast, which saturates:
an amplitude ratio of 3 (ratio value 300) packs as 255, not 44; and
`freq_diff`/`freq_sum` are integer `as u16` casts, which truncate: a bin
difference of 70000 packs as 70000 mod 65536 = 4464, not 65535. -/
theorem C4_counterexample :
    peaks_to_hashes ["mid"] [(100, 3, "mid"), (140, 1, "mid")]
        = [(3 <<< 58) ||| (40 <<< 42) ||| (255 <<< 34) ||| (240 <<< 18)]
    ∧ ((3 : ℕ) <<< 58) ||| (40 <<< 42) ||| (255 <<< 34) ||| (240 <<< 18)
        ≠ (3 <<< 58) ||| (40 <<< 42) ||| (44 <<< 34) ||| (240 <<< 18)
    ∧ peaks_to_hashes ["mid"] [(0, 1, "mid"), (70000, 1, "mid")]
        = [(3 <<< 58) ||| (4464 <<< 42) ||| (100 <<< 34) ||| (4464 <<< 18)]
    ∧ (4464 : ℕ) ≠ 65535 := by
  refine ⟨?_, by decide, ?_, by decide⟩
  · with_unfolding_all decide
  · with_unfolding_all decide

/-- Claim C4, amended: in the packed hash fields of each emitted peak pair,
`freq_diff = |bin_j − bin_i|` truncates modulo 2^16 (wraps on overflow),
`freq_sum = bin_i + bin_j` truncates modulo 2^16, and
`amp_ratio = ⌊(amp_i / amp_j) · 100⌋` clamps to `[0, 255]` (saturates on
8-bit overflow; a ratio value of 300 packs as 255).  Stated by extracting
each designated bit range of `mkHash`. -/
theorem C4_field_values (bandId f1 f2 : ℕ) (a1 a2 : ℚ)
    (hr : 0 ≤ a1 / a2) :
    mkHash bandId (f1, a1) (f2, a2) / 2 ^ 42 % 2 ^ 16
        = (((f2 : ℤ) - (f1 : ℤ)).natAbs) % 65536
    ∧ mkHash bandId (f1, a1) (f2, a2) / 2 ^ 34 % 2 ^ 8
        = min 255 (⌊a1 / a2 * 100⌋.toNat)
    ∧ mkHash bandId (f1, a1) (f2, a2) / 2 ^ 18 % 2 ^ 16 = (f1 + f2) % 65536
    ∧ mkHash bandId (f1, a1) (f2, a2) / 2 ^ 58 = bandId := by
  have hx : ¬ (a1 / a2 * 100 < 0) := by
    simp only [not_lt]
    exact mul_nonneg hr (by norm_num)
  have hratio : rustFloatToU8 (a1 / a2 * 100) = min 255 (⌊a1 / a2 * 100⌋.toNat) := by
    rw [rustFloatToU8, if_neg hx]
  have hpack := pack_fields bandId ((((f2 : ℤ) - (f1 : ℤ)).natAbs) % 65536)
    (rustFloatToU8 (a1 / a2 * 100)) ((f1 + f2) % 65536)
    (Nat.mod_lt _ (by norm_num)) (by rw [hratio]; omega)
    (Nat.mod_lt _ (by norm_num))
  have hm : mkHash bandId (f1, a1) (f2, a2)
      = bandId * 2 ^ 58 + ((((f2 : ℤ) - (f1 : ℤ)).natAbs) % 65536) * 2 ^ 42
        + rustFloatToU8 (a1 / a2 * 100) * 2 ^ 34 + ((f1 + f2) % 65536) * 2 ^ 18 := by
    rw [mkHash]
    exact hpack
  rw [hm, hratio]
  have hd : (((f2 : ℤ) - (f1 : ℤ)).natAbs) % 65536 < 65536 := Nat.mod_lt _ (by norm_num)
  have hs : (f1 + f2) % 65536 < 65536 := Nat.mod_lt _ (by norm_num)
  have hrr : min 255 (⌊a1 / a2 * 100⌋.toNat) < 256 := by omega
  have e42 : (2 : ℕ) ^ 42 = 4398046511104 := by norm_num
  have e34 : (2 : ℕ) ^ 34 = 17179869184 := by norm_num
  have e18 : (2 : ℕ) ^ 18 = 262144 := by norm_num
  have e58 : (2 : ℕ) ^ 58 = 288230376151711744 := by norm_num
  have e16 : (2 : ℕ) ^ 16 = 65536 := by norm_num
  have e8 : (2 : ℕ) ^ 8 = 256 := by norm_num
  rw [e42, e34, e18, e58, e16, e8]
  omega

/-- Witness for `C4_field_values` at band `mid`, bins 100 and 140,
amplitudes 3 and 1 (ratio value 300). -/
theorem C4_field_values_witness :
    mkHash 3 (100, (3 : ℚ)) (140, 1) / 2 ^ 34 % 2 ^ 8 = 255 := by
  have h := (C4_field_values 3 100 140 3 1 (by norm_num)).2.1
  rw [h]
  with_unfolding_all decide

/-! ### Helper lemmas: `generate_fingerprint` structure -/

theorem processStart_some (pick : List Peak → List String)
    (fftMag : List ℚ → List ℚ) (audio : List ℚ) (rate : ℕ) (fps : List ℕ)
    (ws : ℕ) :
    processStart pick fftMag audio rate (some fps) ws =
      if ((audio.drop ws).take 1024).length = 1024 then
        match processWindow pick fftMag rate ((audio.drop ws).take 1024) with
        | none => none
        | some hs => some (fps ++ hs)
      else some fps := rfl

theorem peaks_to_hashes_perm {o₁ o₂ : List String} (peaks : List Peak)
    (h : o₁.Perm o₂) :
    (peaks_to_hashes o₁ peaks).Perm (peaks_to_hashes o₂ peaks) :=
  List.Perm.flatMap_right _ h

theorem foldl_processStart_perm (pick₁ pick₂ : List Peak → List String)
    (fftMag : List ℚ → List ℚ) (audio : List ℚ) (rate : ℕ)
    (hv₁ : ValidPick pick₁) (hv₂ : ValidPick pick₂) :
    ∀ (L : List ℕ) (acc₁ acc₂ l₁ l₂ : List ℕ), acc₁.Perm acc₂ →
      L.foldl (processStart pick₁ fftMag audio rate) (some acc₁) = some l₁ →
      L.foldl (processStart pick₂ fftMag audio rate) (some acc₂) = some l₂ →
      l₁.Perm l₂ := by
  intro L
  induction L with
  | nil =>
    intro acc₁ acc₂ l₁ l₂ hp h₁ h₂
    simp only [List.foldl_nil, Option.some.injEq] at h₁ h₂
    rw [← h₁, ← h₂]
    exact hp
  | cons s L ih =>
    intro acc₁ acc₂ l₁ l₂ hp h₁ h₂
    simp only [List.foldl_cons, processStart_some] at h₁ h₂
    by_cases hw : ((audio.drop s).take 1024).length = 1024
    · rw [if_pos hw, processWindow] at h₁ h₂
      cases hep : extract_peaks (fftMag ((audio.drop s).take 1024)) rate with
      | none =>
        rw [hep] at h₁
        simp only [Option.map_none'] at h₁
        rw [foldl_processStart_none] at h₁
        exact absurd h₁ (by simp)
      | some peaks =>
        rw [hep] at h₁ h₂
        simp only [Option.map_some'] at h₁ h₂
        refine ih _ _ _ _ (hp.append (peaks_to_hashes_perm peaks ?_)) h₁ h₂
        exact (hv₁ peaks).trans (hv₂ peaks).symm
    · rw [if_neg hw] at h₁ h₂
      exact ih _ _ _ _ hp h₁ h₂

/-! ### Claim C1: determinism and hash order -/

/-- Claim C1 counterexample: the claim says the returned hash sequence is
identical across calls and follows the fixed band order 1..6 within each
window.  `peaks_to_hashes` iterates a freshly built `HashMap` whose key
enumeration order is unspecified and varies between maps: for the same peak
list, the two admissible enumerations `["bass", "mid"]` and
`["mid", "bass"]` (both permutations of the present keys) produce different
hash sequences. -/
theorem C1_counterexample :
    List.Perm ["bass", "mid"]
      (keysOf [(10, 2, "bass"), (12, 1, "bass"), (20, 2, "mid"), (22, 1, "mid")])
    ∧ List.Perm ["mid", "bass"]
      (keysOf [(10, 2, "bass"), (12, 1, "bass"), (20, 2, "mid"), (22, 1, "mid")])
    ∧ peaks_to_hashes ["bass", "mid"]
        [(10, 2, "bass"), (12, 1, "bass"), (20, 2, "mid"), (22, 1, "mid")]
      ≠ peaks_to_hashes ["mid", "bass"]
        [(10, 2, "bass"), (12, 1, "bass"), (20, 2, "mid"), (22, 1, "mid")] := by
  refine ⟨by decide, by decide, ?_⟩
  with_unfolding_all decide

/-- Claim C1, amended: `generate_fingerprint` is deterministic up to the
unspecified per-window `HashMap` band enumeration order: for any two
admissible enumeration choices (each window's order a permutation of the
band names present), the returned hash lists are permutations of each
other — the multiset of hashes is a pure function of samples and rate.
Within one band the pair order is the fixed `(i, j)`, `i < j`, iteration
over peaks sorted by ascending frequency bin (definitional in
`peaks_to_hashes`). -/
theorem C1_fingerprint_perm (pick₁ pick₂ : List Peak → List String)
    (fftMag : List ℚ → List ℚ) (audio : List ℚ) (rate : ℕ) (l₁ l₂ : List ℕ)
    (hv₁ : ValidPick pick₁) (hv₂ : ValidPick pick₂)
    (h₁ : generate_fingerprint pick₁ fftMag audio rate = some l₁)
    (h₂ : generate_fingerprint pick₂ fftMag audio rate = some l₂) :
    l₁.Perm l₂ := by
  rw [generate_fingerprint] at h₁ h₂
  exact foldl_processStart_perm pick₁ pick₂ fftMag audio rate hv₁ hv₂
    (windowStarts audio.length) [] [] l₁ l₂ (List.Perm.refl _) h₁ h₂

/-- Witness for `C1_fingerprint_perm` on the empty signal with the canonical
enumeration order. -/
theorem C1_fingerprint_perm_witness : List.Perm ([] : List ℕ) [] :=
  C1_fingerprint_perm pickCanon pickCanon fftMag0 [] 44100 [] []
    (fun _ => List.Perm.refl _) (fun _ => List.Perm.refl _) rfl rfl

/-! ### Helper lemmas: totality and failure of `extract_peaks` -/

theorem bandStep_some (spectrum : List ℚ) (ps : List Peak) (cfg : BandCfg) :
    bandStep spectrum (some ps) cfg =
      match detectBandPeaks spectrum cfg with
      | none => none
      | some bp => some (ps ++ bp) := rfl

theorem detectBandPeaks_none_of_start_gt (spectrum : List ℚ) (cfg : BandCfg)
    (h : min cfg.2.1.2 spectrum.length < cfg.2.1.1) :
    detectBandPeaks spectrum cfg = none := by
  simp only [detectBandPeaks]
  rw [if_pos h]

theorem detectBandPeaks_some_of_ok (spectrum : List ℚ) (cfg : BandCfg)
    (hok : bandCfgOk spectrum.length cfg) :
    ∃ bp, detectBandPeaks spectrum cfg = some bp := by
  obtain ⟨h1, h2⟩ := hok
  simp only [detectBandPeaks]
  rw [if_neg (not_lt.mpr h1)]
  have hlen : ((spectrum.drop cfg.2.1.1).take
      (min cfg.2.1.2 spectrum.length - cfg.2.1.1)).length
      = min cfg.2.1.2 spectrum.length - cfg.2.1.1 := by
    simp only [List.length_take, List.length_drop]
    omega
  rw [hlen, if_neg (by omega)]
  exact ⟨_, rfl⟩

theorem foldl_bandStep_some (spectrum : List ℚ) :
    ∀ (L : List BandCfg) (acc : List Peak),
      (∀ cfg ∈ L, ∃ bp, detectBandPeaks spectrum cfg = some bp) →
      ∃ ps, L.foldl (bandStep spectrum) (some acc) = some ps := by
  intro L
  induction L with
  | nil => intro acc _; exact ⟨acc, rfl⟩
  | cons c L ih =>
    intro acc hall
    obtain ⟨bp, hbp⟩ := hall c (by simp)
    rw [List.foldl_cons, bandStep_some, hbp]
    exact ih (acc ++ bp) (fun cfg hc => hall cfg (by simp [hc]))

theorem extract_peaks_some_of_ok (spectrum : List ℚ) (rate : ℕ)
    (hlen : spectrum.length = 512) (hok : bandsOk rate) :
    ∃ peaks, extract_peaks spectrum rate = some peaks := by
  rw [extract_peaks, hlen]
  have h2 : (512 : ℕ) * 2 = 1024 := rfl
  rw [h2]
  apply foldl_bandStep_some
  intro cfg hcfg
  apply detectBandPeaks_some_of_ok
  rw [hlen]
  exact hok cfg hcfg

theorem processStart_some_of_ok (pick : List Peak → List String)
    (fftMag : List ℚ → List ℚ) (audio : List ℚ) (rate : ℕ)
    (hf : SpectrumLen fftMag) (hok : bandsOk rate) (fps : List ℕ) (s : ℕ) :
    ∃ r, processStart pick fftMag audio rate (some fps) s = some r := by
  rw [processStart_some]
  by_cases hw : ((audio.drop s).take 1024).length = 1024
  · rw [if_pos hw, processWindow]
    obtain ⟨peaks, hp⟩ := extract_peaks_some_of_ok
      (fftMag ((audio.drop s).take 1024)) rate (by rw [hf, hw]) hok
    rw [hp]
    exact ⟨_, rfl⟩
  · rw [if_neg hw]
    exact ⟨fps, rfl⟩

theorem foldl_processStart_some (pick : List Peak → List String)
    (fftMag : List ℚ → List ℚ) (audio : List ℚ) (rate : ℕ)
    (hf : SpectrumLen fftMag) (hok : bandsOk rate) :
    ∀ (L : List ℕ) (acc : List ℕ),
      ∃ l, L.foldl (processStart pick fftMag audio rate) (some acc) = some l := by
  intro L
  induction L with
  | nil => intro acc; exact ⟨acc, rfl⟩
  | cons s L ih =>
    intro acc
    rw [List.foldl_cons]
    obtain ⟨r, hr⟩ := processStart_some_of_ok pick fftMag audio rate hf hok acc s
    rw [hr]
    exact ih r

theorem spectrumLen_fftMag0 : SpectrumLen fftMag0 := by
  intro w
  simp [fftMag0]

/-! ### Claim C2: totality of hash generation -/

/-- Claim C2 counterexample: the claim says hash generation never fails for
any finite sample sequence and any positive sample rate.  At sample rate 1
(any rate below about 16.4 kHz behaves likewise), the treble band start bin
`round(5000 / Δf)` exceeds the spectrum length 512, so
`&spectrum[start..end.min(spectrum.len())]` panics as soon as one window is
processed: on 1025 zero samples `generate_fingerprint` panics (modelled as
`none`) instead of returning a hash list. -/
theorem C2_counterexample :
    generate_fingerprint pickCanon fftMag0 (List.replicate 1025 (0 : ℚ)) 1
      = none := by
  with_unfolding_all decide

/-- Claim C2, amended: hash generation never fails provided every band of
the spectrum geometry at the given sample rate is well-formed (band start
bin within the 512-bin spectrum and band width at least 3 bins, which holds
for the standard audio rates, e.g. 44100 Hz); under that condition it
returns `some` list for every sample sequence, and any signal of at most
1024 samples (too short for one window) yields the empty hash list. -/
theorem C2_no_failure (pick : List Peak → List String)
    (fftMag : List ℚ → List ℚ) (audio : List ℚ) (rate : ℕ)
    (hf : SpectrumLen fftMag) (hok : bandsOk rate) :
    (∃ l, generate_fingerprint pick fftMag audio rate = some l)
    ∧ (audio.length ≤ 1024 →
        generate_fingerprint pick fftMag audio rate = some []) := by
  constructor
  · rw [generate_fingerprint]
    exact foldl_processStart_some pick fftMag audio rate hf hok
      (windowStarts audio.length) []
  · intro hshort
    rw [generate_fingerprint, windowStarts_of_lt (by omega)]
    rfl

/-- Witness for `C2_no_failure` at sample rate 102400 (100 Hz bins) on a
2000-sample zero signal. -/
theorem C2_no_failure_witness :
    (∃ l, generate_fingerprint pickCanon fftMag0
        (List.replicate 2000 (0 : ℚ)) 102400 = some l)
    ∧ ((List.replicate 2000 (0 : ℚ)).length ≤ 1024 →
        generate_fingerprint pickCanon fftMag0
          (List.replicate 2000 (0 : ℚ)) 102400 = some []) :=
  C2_no_failure pickCanon fftMag0 (List.replicate 2000 (0 : ℚ)) 102400
    spectrumLen_fftMag0 (by with_unfolding_all decide)

/-! ### Helper lemmas: provenance of emitted hashes -/

theorem mem_pairHashes {h bid : ℕ} :
    ∀ {L : List (ℕ × ℚ)}, h ∈ pairHashes bid L →
      ∃ p q, p ∈ L ∧ q ∈ L ∧ h = mkHash bid p q := by
  intro L
  induction L with
  | nil => intro hh; exact absurd hh (by simp [pairHashes])
  | cons p rest ih =>
    intro hh
    rw [pairHashes] at hh
    rcases List.mem_append.mp hh with h1 | h2
    · obtain ⟨q, hq, rfl⟩ := List.mem_map.mp h1
      exact ⟨p, q, by simp, by simp [hq], rfl⟩
    · obtain ⟨p', q', hp', hq', rfl⟩ := ih h2
      exact ⟨p', q', by simp [hp'], by simp [hq'], rfl⟩

theorem mem_peaks_to_hashes {h : ℕ} {order : List String} {peaks : List Peak}
    (hm : h ∈ peaks_to_hashes order peaks) :
    ∃ k p q, (∃ pk ∈ peaks, pk.2.2 = k) ∧ h = mkHash (band_name_to_id k) p q := by
  rw [peaks_to_hashes, List.mem_flatMap] at hm
  obtain ⟨k, _, hpair⟩ := hm
  obtain ⟨p, q, hp, _, rfl⟩ := mem_pairHashes hpair
  rw [List.mem_insertionSort, groupOf, List.mem_map] at hp
  obtain ⟨pk, hpk, _⟩ := hp
  rw [List.mem_filter] at hpk
  exact ⟨k, p, q, ⟨pk, hpk.1, by simpa using hpk.2⟩, rfl⟩

theorem detectBandPeaks_names (spectrum : List ℚ) (cfg : BandCfg)
    (bp : List Peak) (hd : detectBandPeaks spectrum cfg = some bp) :
    ∀ p ∈ bp, p.2.2 = cfg.1 := by
  intro p hp
  simp only [detectBandPeaks] at hd
  by_cases h1 : min cfg.2.1.2 spectrum.length < cfg.2.1.1
  · rw [if_pos h1] at hd
    exact absurd hd (by simp)
  · rw [if_neg h1] at hd
    by_cases h2 : ((spectrum.drop cfg.2.1.1).take
        (min cfg.2.1.2 spectrum.length - cfg.2.1.1)).length < 3
    · rw [if_pos h2] at hd
      exact absurd hd (by simp)
    · rw [if_neg h2] at hd
      simp only [Option.some.injEq] at hd
      subst hd
      have hp2 := List.mem_of_mem_take hp
      rw [List.mem_insertionSort] at hp2
      obtain ⟨i, _, hsome⟩ := List.mem_filterMap.mp hp2
      split at hsome
      · simp only [Option.some.injEq] at hsome
        rw [← hsome]
      · exact absurd hsome (by simp)

theorem extract_peaks_names (spectrum : List ℚ) (rate : ℕ)
    (peaks : List Peak) (hep : extract_peaks spectrum rate = some peaks) :
    ∀ p ∈ peaks, p.2.2 ∈ sixBandNames := by
  have main : ∀ (L : List BandCfg) (acc : List Peak),
      (∀ cfg ∈ L, cfg.1 ∈ sixBandNames) →
      (∀ p ∈ acc, p.2.2 ∈ sixBandNames) →
      L.foldl (bandStep spectrum) (some acc) = some peaks →
      ∀ p ∈ peaks, p.2.2 ∈ sixBandNames := by
    intro L
    induction L with
    | nil =>
      intro acc _ hacc hfold
      simp only [List.foldl_nil, Option.some.injEq] at hfold
      rwa [← hfold]
    | cons c L ih =>
      intro acc hL hacc hfold
      rw [List.foldl_cons, bandStep_some] at hfold
      cases hd : detectBandPeaks spectrum c with
      | none =>
        rw [hd] at hfold
        rw [foldl_bandStep_none] at hfold
        exact absurd hfold (by simp)
      | some bp =>
        rw [hd] at hfold
        refine ih (acc ++ bp) (fun cfg hc => hL cfg (by simp [hc])) ?_ hfold
        intro p hp
        rcases List.mem_append.mp hp with h1 | h2
        · exact hacc p h1
        · rw [detectBandPeaks_names spectrum c bp hd p h2]
          exact hL c (by simp)
  refine main _ [] ?_ (by simp) hep
  intro cfg hcfg
  rw [band_configs] at hcfg
  simp only [List.mem_cons, List.not_mem_nil, or_false] at hcfg
  rcases hcfg with rfl | rfl | rfl | rfl | rfl | rfl <;> simp [sixBandNames]

theorem mem_foldl_processStart (pick : List Peak → List String)
    (fftMag : List ℚ → List ℚ) (audio : List ℚ) (rate : ℕ) :
    ∀ (L : List ℕ) (acc l : List ℕ),
      L.foldl (processStart pick fftMag audio rate) (some acc) = some l →
      ∀ h ∈ l, h ∈ acc ∨ ∃ w peaks, extract_peaks (fftMag w) rate = some peaks
        ∧ h ∈ peaks_to_hashes (pick peaks) peaks := by
  intro L
  induction L with
  | nil =>
    intro acc l hfold h hh
    simp only [List.foldl_nil, Option.some.injEq] at hfold
    rw [← hfold] at hh
    exact Or.inl hh
  | cons s L ih =>
    intro acc l hfold h hh
    rw [List.foldl_cons, processStart_some] at hfold
    by_cases hw : ((audio.drop s).take 1024).length = 1024
    · rw [if_pos hw, processWindow] at hfold
      cases hep : extract_peaks (fftMag ((audio.drop s).take 1024)) rate with
      | none =>
        rw [hep] at hfold
        simp only [Option.map_none'] at hfold
        rw [foldl_processStart_none] at hfold
        exact absurd hfold (by simp)
      | some peaks =>
        rw [hep] at hfold
        simp only [Option.map_some'] at hfold
        rcases ih _ _ hfold h hh with hacc | hr
        · rcases List.mem_append.mp hacc with h1 | h2
          · exact Or.inl h1
          · exact Or.inr ⟨_, peaks, hep, h2⟩
        · exact Or.inr hr
    · rw [if_neg hw] at hfold
      exact ih _ _ hfold h hh

theorem rustFloatToU8_lt (x : ℚ) : rustFloatToU8 x < 256 := by
  rw [rustFloatToU8]
  split <;> omega

theorem band_name_to_id_range (k : String) (hk : k ∈ sixBandNames) :
    1 ≤ band_name_to_id k ∧ band_name_to_id k ≤ 6 := by
  rw [sixBandNames] at hk
  simp only [List.mem_cons, List.not_mem_nil, or_false] at hk
  rcases hk with rfl | rfl | rfl | rfl | rfl | rfl <;> decide

theorem mkHash_decomp (bid : ℕ) (p q : ℕ × ℚ) :
    ∃ d r s : ℕ, d < 2 ^ 16 ∧ r < 2 ^ 8 ∧ s < 2 ^ 16
      ∧ mkHash bid p q
          = bid * 2 ^ 58 + d * 2 ^ 42 + r * 2 ^ 34 + s * 2 ^ 18 := by
  refine ⟨(((q.1 : ℤ) - (p.1 : ℤ)).natAbs) % 65536,
    rustFloatToU8 (p.2 / q.2 * 100), (p.1 + q.1) % 65536,
    Nat.mod_lt _ (by norm_num), rustFloatToU8_lt _,
    Nat.mod_lt _ (by norm_num), ?_⟩
  rw [mkHash]
  exact pack_fields bid _ _ _ (Nat.mod_lt _ (by norm_num))
    (rustFloatToU8_lt _) (Nat.mod_lt _ (by norm_num))

/-! ### A concrete nontrivial run: one emitted hash -/

set_option maxHeartbeats 4000000 in
theorem genFP_specW_eval :
    generate_fingerprint pickCanon fftMagW (List.replicate 1025 (0 : ℚ)) 102400
      = some [(3 <<< 58) ||| (7 <<< 42) ||| (100 <<< 34) ||| (33 <<< 18)] := by
  rw [generate_fingerprint]
  have hlen : (List.replicate 1025 (0 : ℚ)).length = 1025 := by simp
  rw [hlen]
  have hws : windowStarts 1025 = [0] := by decide
  rw [hws, List.foldl_cons, List.foldl_nil, processStart_some]
  have hwin : (((List.replicate 1025 (0 : ℚ)).drop 0).take 1024)
      = List.replicate 1024 0 := by simp
  rw [hwin]
  rw [if_pos (by simp : (List.replicate 1024 (0 : ℚ)).length = 1024)]
  rw [processWindow]
  have hmag : fftMagW (List.replicate 1024 (0 : ℚ)) = specW := by
    rw [fftMagW, if_pos (by simp)]
  rw [hmag]
  have hep : extract_peaks specW 102400 = some [(13, 10, "mid"), (20, 10, "mid")] := by
    with_unfolding_all decide
  rw [hep]
  simp only [Option.map_some', List.nil_append, Option.some.injEq]
  with_unfolding_all decide

/-! ### Claim C6: hash bit layout -/

/-- Claim C6: for every hash emitted by `generate_fingerprint`, the low
18 bits are zero, the band id in bits [63..58] lies in {1..6}, and the four
packed fields (band id 6 bits, freq diff 16 bits, amp ratio 8 bits, freq
sum 16 bits) occupy only their designated bit ranges: every hash decomposes
as `bid·2^58 + d·2^42 + r·2^34 + s·2^18` with each field below its width. -/
theorem C6_hash_layout (pick : List Peak → List String)
    (fftMag : List ℚ → List ℚ) (audio : List ℚ) (rate : ℕ) (l : List ℕ)
    (hgen : generate_fingerprint pick fftMag audio rate = some l) :
    ∀ h ∈ l, ∃ bid d r s : ℕ,
      1 ≤ bid ∧ bid ≤ 6 ∧ d < 2 ^ 16 ∧ r < 2 ^ 8 ∧ s < 2 ^ 16
      ∧ h = bid * 2 ^ 58 + d * 2 ^ 42 + r * 2 ^ 34 + s * 2 ^ 18
      ∧ h % 2 ^ 18 = 0 := by
  intro h hh
  rw [generate_fingerprint] at hgen
  rcases mem_foldl_processStart pick fftMag audio rate _ [] l hgen h hh with
    habs | ⟨w, peaks, hep, hmem⟩
  · exact absurd habs (by simp)
  · obtain ⟨k, p, q, ⟨pk, hpk, hname⟩, rfl⟩ := mem_peaks_to_hashes hmem
    have hk6 : k ∈ sixBandNames := hname ▸ extract_peaks_names _ rate peaks hep pk hpk
    obtain ⟨hb1, hb6⟩ := band_name_to_id_range k hk6
    obtain ⟨d, r, s, hd, hr, hs, hdecomp⟩ := mkHash_decomp (band_name_to_id k) p q
    refine ⟨band_name_to_id k, d, r, s, hb1, hb6, hd, hr, hs, hdecomp, ?_⟩
    rw [hdecomp]
    have e58 : (2 : ℕ) ^ 58 = 2 ^ 40 * 2 ^ 18 := by norm_num
    have e42 : (2 : ℕ) ^ 42 = 2 ^ 24 * 2 ^ 18 := by norm_num
    have e34 : (2 : ℕ) ^ 34 = 2 ^ 16 * 2 ^ 18 := by norm_num
    rw [e58, e42, e34]
    omega

/-- Witness for `C6_hash_layout` on the spiked-spectrum run that emits the
single hash `(3 <<< 58) ||| (7 <<< 42) ||| (100 <<< 34) ||| (33 <<< 18)`. -/
theorem C6_hash_layout_witness :
    ∃ bid d r s : ℕ,
      1 ≤ bid ∧ bid ≤ 6 ∧ d < 2 ^ 16 ∧ r < 2 ^ 8 ∧ s < 2 ^ 16
      ∧ (3 <<< 58) ||| (7 <<< 42) ||| (100 <<< 34) ||| (33 <<< 18)
          = bid * 2 ^ 58 + d * 2 ^ 42 + r * 2 ^ 34 + s * 2 ^ 18
      ∧ ((3 <<< 58) ||| (7 <<< 42) ||| (100 <<< 34) ||| (33 <<< 18)) % 2 ^ 18
          = 0 :=
  C6_hash_layout pickCanon fftMagW (List.replicate 1025 (0 : ℚ)) 102400 _
    genFP_specW_eval _ (by simp)

/-! ### Helper lemmas: counting emitted hashes -/

theorem pairHashes_length (bid : ℕ) :
    ∀ L : List (ℕ × ℚ), (pairHashes bid L).length = L.length.choose 2 := by
  intro L
  induction L with
  | nil => rfl
  | cons p rest ih =>
    rw [pairHashes, List.length_append, List.length_map, ih, List.length_cons]
    rw [Nat.choose_succ_succ, Nat.choose_one_right]

theorem detectBandPeaks_length_le (spectrum : List ℚ) (cfg : BandCfg)
    (bp : List Peak) (hd : detectBandPeaks spectrum cfg = some bp) :
    bp.length ≤ cfg.2.2.1 := by
  simp only [detectBandPeaks] at hd
  by_cases h1 : min cfg.2.1.2 spectrum.length < cfg.2.1.1
  · rw [if_pos h1] at hd
    exact absurd hd (by simp)
  · rw [if_neg h1] at hd
    by_cases h2 : ((spectrum.drop cfg.2.1.1).take
        (min cfg.2.1.2 spectrum.length - cfg.2.1.1)).length < 3
    · rw [if_pos h2] at hd
      exact absurd hd (by simp)
    · rw [if_neg h2] at hd
      simp only [Option.some.injEq] at hd
      subst hd
      rw [List.length_take]
      exact min_le_left _ _

theorem capSum_cons (k : String) (c : BandCfg) (L : List BandCfg) :
    capSum k (c :: L) = (if c.1 == k then c.2.2.1 else 0) + capSum k L := by
  rw [capSum, List.filter_cons]
  by_cases h : (c.1 == k) = true
  · rw [if_pos h, if_pos h, List.map_cons, List.sum_cons, capSum]
  · rw [if_neg h, if_neg h, capSum, Nat.zero_add]

theorem foldl_bandStep_filter_le (spectrum : List ℚ) (k : String) :
    ∀ (L : List BandCfg) (acc peaks : List Peak),
      L.foldl (bandStep spectrum) (some acc) = some peaks →
      (peaks.filter (fun p => p.2.2 == k)).length
        ≤ (acc.filter (fun p => p.2.2 == k)).length + capSum k L := by
  intro L
  induction L with
  | nil =>
    intro acc peaks hf
    simp only [List.foldl_nil, Option.some.injEq] at hf
    subst hf
    simp [capSum]
  | cons c L ih =>
    intro acc peaks hf
    rw [List.foldl_cons, bandStep_some] at hf
    cases hd : detectBandPeaks spectrum c with
    | none =>
      rw [hd, foldl_bandStep_none] at hf
      exact absurd hf (by simp)
    | some bp =>
      rw [hd] at hf
      have hih := ih (acc ++ bp) peaks hf
      rw [List.filter_append, List.length_append] at hih
      have hbp : (bp.filter (fun p => p.2.2 == k)).length
          ≤ (if c.1 == k then c.2.2.1 else 0) := by
        by_cases hck : c.1 = k
        · rw [if_pos (by simpa using hck)]
          exact (List.length_filter_le _ _).trans
            (detectBandPeaks_length_le spectrum c bp hd)
        · rw [if_neg (by simpa using hck)]
          have hnil : bp.filter (fun p => p.2.2 == k) = [] := by
            rw [List.filter_eq_nil_iff]
            intro p hp
            rw [detectBandPeaks_names spectrum c bp hd p hp]
            simpa using hck
          simp [hnil]
      rw [capSum_cons]
      omega

theorem capSum_band_configs (bands : FrequencyBands) (k : String) :
    capSum k (band_configs bands) ≤ maxPeaksOf k := by
  rw [band_configs]
  by_cases h1 : ("bass" : String) = k
  · subst h1; simp +decide [capSum, maxPeaksOf]
  by_cases h2 : ("low_mid" : String) = k
  · subst h2; simp +decide [capSum, maxPeaksOf]
  by_cases h3 : ("mid" : String) = k
  · subst h3; simp +decide [capSum, maxPeaksOf]
  by_cases h4 : ("high_mid" : String) = k
  · subst h4; simp +decide [capSum, maxPeaksOf]
  by_cases h5 : ("treble" : String) = k
  · subst h5; simp +decide [capSum, maxPeaksOf]
  by_cases h6 : ("presence" : String) = k
  · subst h6; simp +decide [capSum, maxPeaksOf]
  have : capSum k [] = 0 := rfl
  simp only [capSum_cons, this]
  rw [if_neg (by simpa using h1), if_neg (by simpa using h2),
    if_neg (by simpa using h3), if_neg (by simpa using h4),
    if_neg (by simpa using h5), if_neg (by simpa using h6)]
  exact Nat.zero_le _

theorem peaks_filter_le (spectrum : List ℚ) (rate : ℕ) (peaks : List Peak)
    (hep : extract_peaks spectrum rate = some peaks) (k : String) :
    (peaks.filter (fun p => p.2.2 == k)).length ≤ maxPeaksOf k := by
  rw [extract_peaks] at hep
  have h := foldl_bandStep_filter_le spectrum k _ [] peaks hep
  simp only [List.filter_nil, List.length_nil, Nat.zero_add] at h
  exact h.trans (capSum_band_configs _ k)

theorem subperm_map_sum_le {l₁ l₂ : List String} (f : String → ℕ)
    (h : l₁.Subperm l₂) : (l₁.map f).sum ≤ (l₂.map f).sum := by
  obtain ⟨l, hp, hs⟩ := h
  calc (l₁.map f).sum = (l.map f).sum := ((hp.symm).map f).sum_eq
    _ ≤ (l₂.map f).sum := (hs.map f).sum_le_sum (by simp)

theorem keysOf_subset_six {peaks : List Peak}
    (hnames : ∀ p ∈ peaks, p.2.2 ∈ sixBandNames) :
    keysOf peaks ⊆ sixBandNames := by
  intro k hk
  rw [keysOf, List.mem_dedup, List.mem_map] at hk
  obtain ⟨p, hp, rfl⟩ := hk
  exact hnames p hp

theorem peaks_to_hashes_length_le (order : List String) (peaks : List Peak)
    (hperm : order.Perm (keysOf peaks))
    (hnames : ∀ p ∈ peaks, p.2.2 ∈ sixBandNames)
    (hcount : ∀ k, (peaks.filter (fun p => p.2.2 == k)).length ≤ maxPeaksOf k) :
    (peaks_to_hashes order peaks).length ≤ 16 := by
  rw [peaks_to_hashes, List.length_flatMap]
  have hterm : ∀ k : String,
      (List.length ∘ fun k => pairHashes (band_name_to_id k)
        (List.insertionSort freqLe (groupOf peaks k))) k
      ≤ (maxPeaksOf k).choose 2 := by
    intro k
    simp only [Function.comp_apply]
    rw [pairHashes_length, List.length_insertionSort]
    apply Nat.choose_le_choose
    rw [groupOf, List.length_map]
    exact hcount k
  calc (order.map (List.length ∘ fun k => pairHashes (band_name_to_id k)
        (List.insertionSort freqLe (groupOf peaks k)))).sum
      ≤ (order.map (fun k => (maxPeaksOf k).choose 2)).sum :=
        List.sum_le_sum (fun k _ => hterm k)
    _ = ((keysOf peaks).map (fun k => (maxPeaksOf k).choose 2)).sum :=
        (hperm.map _).sum_eq
    _ ≤ (sixBandNames.map (fun k => (maxPeaksOf k).choose 2)).sum :=
        subperm_map_sum_le _
          ((List.nodup_dedup _).subperm (keysOf_subset_six hnames))
    _ ≤ 16 := by decide

theorem processWindow_length_le (pick : List Peak → List String)
    (fftMag : List ℚ → List ℚ) (rate : ℕ) (w : List ℚ) (hs : List ℕ)
    (hv : ValidPick pick) (hpw : processWindow pick fftMag rate w = some hs) :
    hs.length ≤ 16 := by
  rw [processWindow] at hpw
  cases hep : extract_peaks (fftMag w) rate with
  | none =>
    rw [hep] at hpw
    exact absurd hpw (by simp)
  | some peaks =>
    rw [hep] at hpw
    simp only [Option.map_some', Option.some.injEq] at hpw
    subst hpw
    exact peaks_to_hashes_length_le (pick peaks) peaks (hv peaks)
      (extract_peaks_names _ rate peaks hep)
      (peaks_filter_le _ rate peaks hep)

theorem foldl_processStart_length (pick : List Peak → List String)
    (fftMag : List ℚ → List ℚ) (audio : List ℚ) (rate : ℕ)
    (hv : ValidPick pick) :
    ∀ (L : List ℕ) (acc l : List ℕ),
      L.foldl (processStart pick fftMag audio rate) (some acc) = some l →
      l.length ≤ acc.length + L.length * 16 := by
  intro L
  induction L with
  | nil =>
    intro acc l hf
    simp only [List.foldl_nil, Option.some.injEq] at hf
    subst hf
    simp
  | cons s L ih =>
    intro acc l hf
    rw [List.foldl_cons, processStart_some] at hf
    by_cases hw : ((audio.drop s).take 1024).length = 1024
    · rw [if_pos hw] at hf
      cases hpw : processWindow pick fftMag rate ((audio.drop s).take 1024) with
      | none =>
        rw [hpw, foldl_processStart_none] at hf
        exact absurd hf (by simp)
      | some block =>
        rw [hpw] at hf
        have hih := ih _ _ hf
        rw [List.length_append] at hih
        have hb := processWindow_length_le pick fftMag rate _ block hv hpw
        rw [List.length_cons]
        omega
    · rw [if_neg hw] at hf
      have hih := ih _ _ hf
      rw [List.length_cons]
      omega

/-! ### Claim C8: hash count bound -/

/-- Claim C8: for any admissible per-window band enumeration, the length of
`generate_fingerprint(samples, r)` is at most
`(⌊(|samples| − 1024)/512⌋ + 1) · 16`, where 16 is the maximum number of
peak pairs per window over the six bands
(`C(3,2)+C(4,2)+C(4,2)+C(2,2)+C(1,2)+C(1,2)`); a signal shorter than 1024
samples yields zero hashes. -/
theorem C8_length_bound (pick : List Peak → List String)
    (fftMag : List ℚ → List ℚ) (audio : List ℚ) (rate : ℕ) (l : List ℕ)
    (hv : ValidPick pick)
    (hgen : generate_fingerprint pick fftMag audio rate = some l) :
    l.length ≤ ((audio.length - 1024) / 512 + 1) * 16
    ∧ (audio.length < 1024 → l.length = 0) := by
  constructor
  · rw [generate_fingerprint] at hgen
    have h := foldl_processStart_length pick fftMag audio rate hv _ [] l hgen
    rw [windowStarts, List.length_map, List.length_range] at h
    have hcount : (audio.length - 1024 + 511) / 512 ≤ (audio.length - 1024) / 512 + 1 := by
      omega
    calc l.length ≤ [].length + (audio.length - 1024 + 511) / 512 * 16 := h
      _ ≤ ((audio.length - 1024) / 512 + 1) * 16 := by
        simp only [List.length_nil, Nat.zero_add]
        exact Nat.mul_le_mul_right _ hcount
  · intro hshort
    rw [generate_fingerprint, windowStarts_of_lt (by omega)] at hgen
    simp only [List.foldl_nil, Option.some.injEq] at hgen
    rw [← hgen]
    rfl

/-- Witness for `C8_length_bound` on the spiked-spectrum run emitting one
hash from a 1025-sample signal (bound `16`). -/
theorem C8_length_bound_witness :
    ([(3 <<< 58) ||| (7 <<< 42) ||| (100 <<< 34) ||| (33 <<< 18)] : List ℕ).length
        ≤ (((List.replicate 1025 (0 : ℚ)).length - 1024) / 512 + 1) * 16
    ∧ ((List.replicate 1025 (0 : ℚ)).length < 1024 →
        ([(3 <<< 58) ||| (7 <<< 42) ||| (100 <<< 34) ||| (33 <<< 18)] : List ℕ).length = 0) :=
  C8_length_bound pickCanon fftMagW (List.replicate 1025 (0 : ℚ)) 102400 _
    (fun _ => List.Perm.refl _) genFP_specW_eval

/-! ### Helper lemmas: `search_song` accumulation -/

theorem bumpEntry_mem_cases :
    ∀ (acc : List (ℕ × ℕ × List ℕ)) (sid h : ℕ) (e : ℕ × ℕ × List ℕ),
      e ∈ bumpEntry acc sid h →
      e ∈ acc
      ∨ (e.1 = sid ∧ ∃ c hs, (sid, c, hs) ∈ acc ∧ e = (sid, c + 1, hs ++ [h]))
      ∨ e = (sid, 1, [h]) := by
  intro acc
  induction acc with
  | nil =>
    intro sid h e he
    rw [bumpEntry] at he
    simp only [List.mem_singleton] at he
    exact Or.inr (Or.inr he)
  | cons a rest ih =>
    intro sid h e he
    obtain ⟨k, c, hs⟩ := a
    rw [bumpEntry] at he
    by_cases hk : k = sid
    · rw [if_pos hk] at he
      rcases List.mem_cons.mp he with rfl | hrest
      · subst hk
        exact Or.inr (Or.inl ⟨rfl, c, hs, by simp, rfl⟩)
      · exact Or.inl (List.mem_cons.mpr (Or.inr hrest))
    · rw [if_neg hk] at he
      rcases List.mem_cons.mp he with rfl | hrest
      · exact Or.inl (by simp)
      · rcases ih sid h e hrest with h1 | h2 | h3
        · exact Or.inl (List.mem_cons.mpr (Or.inr h1))
        · obtain ⟨he1, c', hs', hmem, heq⟩ := h2
          exact Or.inr (Or.inl ⟨he1, c', hs', List.mem_cons.mpr (Or.inr hmem), heq⟩)
        · exact Or.inr (Or.inr h3)

theorem bumpEntry_inv (acc : List (ℕ × ℕ × List ℕ)) (sid h : ℕ)
    (hinv : ∀ e ∈ acc, e.2.1 = e.2.2.length ∧ 1 ≤ e.2.1) :
    ∀ e ∈ bumpEntry acc sid h, e.2.1 = e.2.2.length ∧ 1 ≤ e.2.1 := by
  intro e he
  rcases bumpEntry_mem_cases acc sid h e he with h1 | h2 | h3
  · exact hinv e h1
  · obtain ⟨_, c, hs, hmem, rfl⟩ := h2
    have := hinv _ hmem
    simp only [List.length_append, List.length_singleton] at *
    omega
  · subst h3
    simp

theorem foldl_bump_inv (h : ℕ) :
    ∀ (sids : List ℕ) (acc : List (ℕ × ℕ × List ℕ)),
      (∀ e ∈ acc, e.2.1 = e.2.2.length ∧ 1 ≤ e.2.1) →
      ∀ e ∈ sids.foldl (fun a sid => bumpEntry a sid h) acc,
        e.2.1 = e.2.2.length ∧ 1 ≤ e.2.1 := by
  intro sids
  induction sids with
  | nil => intro acc hinv e he; exact hinv e he
  | cons sid rest ih =>
    intro acc hinv e he
    rw [List.foldl_cons] at he
    exact ih (bumpEntry acc sid h) (bumpEntry_inv acc sid h hinv) e he

theorem accumulateMatches_inv (postings : ℕ → List ℕ) (qs : List ℕ) :
    ∀ e ∈ accumulateMatches postings qs, e.2.1 = e.2.2.length ∧ 1 ≤ e.2.1 := by
  rw [accumulateMatches]
  have main : ∀ (L : List ℕ) (acc : List (ℕ × ℕ × List ℕ)),
      (∀ e ∈ acc, e.2.1 = e.2.2.length ∧ 1 ≤ e.2.1) →
      ∀ e ∈ L.foldl (processHash postings) acc,
        e.2.1 = e.2.2.length ∧ 1 ≤ e.2.1 := by
    intro L
    induction L with
    | nil => intro acc hinv e he; exact hinv e he
    | cons q rest ih =>
      intro acc hinv e he
      rw [List.foldl_cons] at he
      exact ih (processHash postings acc q)
        (foldl_bump_inv q (postings q) acc hinv) e he
  exact main qs [] (by simp)

theorem foldl_bump_len (h n : ℕ) :
    ∀ (sids : List ℕ) (acc : List (ℕ × ℕ × List ℕ)),
      sids.Nodup →
      (∀ e ∈ acc, e.2.2.length ≤ n + 1) →
      (∀ e ∈ acc, e.1 ∈ sids → e.2.2.length ≤ n) →
      ∀ e ∈ sids.foldl (fun a sid => bumpEntry a sid h) acc,
        e.2.2.length ≤ n + 1 := by
  intro sids
  induction sids with
  | nil => intro acc _ h1 _ e he; exact h1 e he
  | cons sid rest ih =>
    intro acc hnd h1 h2 e he
    rw [List.foldl_cons] at he
    have hsid : sid ∉ rest := (List.nodup_cons.mp hnd).1
    refine ih (bumpEntry acc sid h) (List.nodup_cons.mp hnd).2 ?_ ?_ e he
    · intro e' he'
      rcases bumpEntry_mem_cases acc sid h e' he' with hc1 | hc2 | hc3
      · exact h1 e' hc1
      · obtain ⟨_, c, hs, hmem, rfl⟩ := hc2
        have := h2 _ hmem (by simp)
        simp only [List.length_append, List.length_singleton] at *
        omega
      · subst hc3
        simp
    · intro e' he' hkey
      rcases bumpEntry_mem_cases acc sid h e' he' with hc1 | hc2 | hc3
      · exact h2 e' hc1 (List.mem_cons.mpr (Or.inr hkey))
      · obtain ⟨hk, _, _, _, rfl⟩ := hc2
        exact absurd hkey (by simpa using hsid)
      · subst hc3
        exact absurd hkey (by simpa using hsid)

theorem processHash_len (postings : ℕ → List ℕ) (h n : ℕ)
    (acc : List (ℕ × ℕ × List ℕ)) (hnd : (postings h).Nodup)
    (hlen : ∀ e ∈ acc, e.2.2.length ≤ n) :
    ∀ e ∈ processHash postings acc h, e.2.2.length ≤ n + 1 := by
  rw [processHash]
  exact foldl_bump_len h n (postings h) acc hnd
    (fun e he => (hlen e he).trans (by omega)) (fun e he _ => hlen e he)

theorem accumulateMatches_len (postings : ℕ → List ℕ)
    (hnd : ∀ h, (postings h).Nodup) (qs : List ℕ) :
    ∀ e ∈ accumulateMatches postings qs, e.2.2.length ≤ qs.length := by
  rw [accumulateMatches]
  have main : ∀ (L : List ℕ) (acc : List (ℕ × ℕ × List ℕ)) (n : ℕ),
      (∀ e ∈ acc, e.2.2.length ≤ n) →
      ∀ e ∈ L.foldl (processHash postings) acc, e.2.2.length ≤ n + L.length := by
    intro L
    induction L with
    | nil => intro acc n hlen e he; exact (hlen e he).trans (by simp)
    | cons q rest ih =>
      intro acc n hlen e he
      rw [List.foldl_cons] at he
      have := ih (processHash postings acc q) (n + 1)
        (processHash_len postings q n acc (hnd q) hlen) e he
      simpa [Nat.add_assoc, Nat.add_comm 1] using this
  have h0 := main qs [] 0 (by simp)
  simpa using h0

theorem scoreEntry_bounds (songTable : ℕ → Option SongInfo) (T : ℕ)
    (e : ℕ × ℕ × List ℕ) (x : SongInfo × ℚ)
    (hsc : scoreEntry songTable T e = some x)
    (hinv : e.2.1 = e.2.2.length ∧ 1 ≤ e.2.1)
    (hlen : e.2.2.length ≤ T) :
    0 < x.2 ∧ x.2 ≤ 1 := by
  obtain ⟨hce, hc1⟩ := hinv
  rw [scoreEntry] at hsc
  cases hst : songTable e.1 with
  | none =>
    rw [hst] at hsc
    exact absurd hsc (by simp)
  | some info =>
    rw [hst] at hsc
    simp only at hsc
    have hratio : (e.2.1 : ℚ) / (e.2.2.length : ℚ) = 1 := by
      rw [← hce]
      exact div_self (by exact_mod_cast (by omega : e.2.1 ≠ 0))
    rw [hratio] at hsc
    have hpen : match_penalty 1 = 1 := by norm_num [match_penalty]
    rw [hpen, mul_one] at hsc
    by_cases hbase : ((e.2.2.length : ℚ) / (T : ℚ)) < 1/10
    · rw [if_pos hbase] at hsc
      rw [if_neg (by norm_num)] at hsc
      exact absurd hsc (by simp)
    · rw [if_neg hbase] at hsc
      have hTpos : (0 : ℚ) < (T : ℚ) := by
        rcases Nat.eq_zero_or_pos T with hT | hT
        · exfalso
          apply hbase
          rw [hT]
          norm_num
        · exact_mod_cast hT
      have hbpos : 0 < (e.2.2.length : ℚ) / (T : ℚ) := by
        push_neg at hbase
        calc (0 : ℚ) < 1/10 := by norm_num
          _ ≤ _ := hbase
      rw [if_pos hbpos] at hsc
      simp only [Option.some.injEq] at hsc
      subst hsc
      refine ⟨hbpos, ?_⟩
      rw [div_le_one hTpos]
      exact_mod_cast hlen

/-! ### Claim C5: the penalty branches are unreachable -/

/-- Claim C5: in every per-song accumulator produced by the `search_song`
scan, the raw match count equals the length of the matched-hash list (both
are incremented together on every hit), so the match ratio is exactly 1 and
the 0.8 / 0.9 penalty branches are unreachable: the penalty factor is
always 1. -/
theorem C5_penalty_unreachable (postings : ℕ → List ℕ) (qs : List ℕ) :
    ∀ e ∈ accumulateMatches postings qs,
      e.2.1 = e.2.2.length
      ∧ (e.2.1 : ℚ) / (e.2.2.length : ℚ) = 1
      ∧ match_penalty ((e.2.1 : ℚ) / (e.2.2.length : ℚ)) = 1 := by
  intro e he
  obtain ⟨hce, hc1⟩ := accumulateMatches_inv postings qs e he
  have hratio : (e.2.1 : ℚ) / (e.2.2.length : ℚ) = 1 := by
    rw [← hce]
    exact div_self (by exact_mod_cast (by omega : e.2.1 ≠ 0))
  exact ⟨hce, hratio, by rw [hratio]; norm_num [match_penalty]⟩

/-- Witness for `C5_penalty_unreachable`: one query hash hitting song 7. -/
theorem C5_penalty_unreachable_witness :
    ((7, 1, [5]) : ℕ × ℕ × List ℕ).2.1
        = ((7, 1, [5]) : ℕ × ℕ × List ℕ).2.2.length
    ∧ (((7, 1, [5]) : ℕ × ℕ × List ℕ).2.1 : ℚ)
        / (((7, 1, [5]) : ℕ × ℕ × List ℕ).2.2.length : ℚ) = 1
    ∧ match_penalty ((((7, 1, [5]) : ℕ × ℕ × List ℕ).2.1 : ℚ)
        / (((7, 1, [5]) : ℕ × ℕ × List ℕ).2.2.length : ℚ)) = 1 :=
  C5_penalty_unreachable (fun _ => [7]) [5] (7, 1, [5]) (by decide)

/-! ### Claim C7: confidence range and result order -/

/-- Claim C7: every `(song_info, confidence)` pair returned by `search_song`
has `0 < confidence ≤ 1` (songs whose base confidence falls below 0.10 get
confidence 0 and are dropped before this point), and the returned list is
sorted by descending confidence.  `es` is the arbitrary enumeration of the
accumulator map, and the posting sets are duplicate-free as Redis set
members. -/
theorem C7_confidence_sorted (postings : ℕ → List ℕ)
    (songTable : ℕ → Option SongInfo) (qs : List ℕ)
    (es : List (ℕ × ℕ × List ℕ))
    (hnd : ∀ h, (postings h).Nodup)
    (hes : es.Perm (accumulateMatches postings qs)) :
    (∀ x ∈ search_song songTable qs es, 0 < x.2 ∧ x.2 ≤ 1)
    ∧ List.Sorted confGe (search_song songTable qs es) := by
  constructor
  · intro x hx
    rw [search_song, List.mem_insertionSort] at hx
    obtain ⟨e, he, hsc⟩ := List.mem_filterMap.mp hx
    have he' : e ∈ accumulateMatches postings qs := hes.subset he
    exact scoreEntry_bounds songTable qs.length e x hsc
      (accumulateMatches_inv postings qs e he')
      (accumulateMatches_len postings hnd qs e he')
  · rw [search_song]
    exact List.sorted_insertionSort confGe _

/-- Witness for `C7_confidence_sorted`: a one-hash query matching song 7
with full confidence. -/
theorem C7_confidence_sorted_witness :
    (∀ x ∈ search_song (fun _ => some ⟨"tone", "T"⟩) [5] [(7, 1, [5])],
        0 < x.2 ∧ x.2 ≤ 1)
    ∧ List.Sorted confGe
        (search_song (fun _ => some ⟨"tone", "T"⟩) [5] [(7, 1, [5])]) :=
  C7_confidence_sorted (fun _ => [7]) (fun _ => some ⟨"tone", "T"⟩) [5]
    [(7, 1, [5])] (fun _ => List.nodup_singleton 7) (by decide)

/-! ### Claim C9: WAV sample normalisation -/

/-- Claim C9: WAV sample normalisation scales integer samples by the
positive full scale of their bit depth — 16-bit by 32767 (`i16::MAX`),
24-bit by 2^23, 32-bit by 2^31 − 1 (`i32::MAX`) — passes float samples
through unchanged, and for any integer bit depth outside {16, 24, 32}
fails with the unsupported-format error. -/
theorem C9_normalisation :
    (∀ l : List ℤ,
      normalizeSamples (.intSamples l) 16
          = .ok (l.map (fun s => (s : ℚ) / 32767))
      ∧ normalizeSamples (.intSamples l) 24
          = .ok (l.map (fun s => (s : ℚ) / 2 ^ 23))
      ∧ normalizeSamples (.intSamples l) 32
          = .ok (l.map (fun s => (s : ℚ) / (2 ^ 31 - 1))))
    ∧ (∀ (l : List ℚ) (b : ℕ), normalizeSamples (.floatSamples l) b = .ok l)
    ∧ (∀ (l : List ℤ) (b : ℕ), b ∉ ([16, 24, 32] : List ℕ) →
        normalizeSamples (.intSamples l) b
          = .error ("Unsupported bit depth: " ++ toString b)) := by
  refine ⟨fun l => ⟨rfl, ?_, ?_⟩, fun l b => rfl, ?_⟩
  · have h : ((2 : ℚ) ^ 23) = 8388608 := by norm_num
    simp only [h]
    rfl
  · have h : ((2 : ℚ) ^ 31 - 1) = 2147483647 := by norm_num
    simp only [h]
    rfl
  · intro l b hb
    simp only [List.mem_cons, List.not_mem_nil, or_false, not_or] at hb
    obtain ⟨h16, h24, h32⟩ := hb
    show (if b = 16 then _ else if b = 24 then _ else if b = 32 then _ else _) = _
    rw [if_neg h16, if_neg h24, if_neg h32]

/-- Witness for `C9_normalisation`: full-scale 16-bit sample and the 8-bit
failure. -/
theorem C9_normalisation_witness :
    normalizeSamples (.intSamples [32767]) 16 = .ok [(32767 : ℚ) / 32767]
    ∧ normalizeSamples (.intSamples [1]) 8
        = .error ("Unsupported bit depth: " ++ toString 8)
    ∧ normalizeSamples (.intSamples [1]) 64
        = .error ("Unsupported bit depth: " ++ toString 64) := by
  refine ⟨?_, C9_normalisation.2.2 [1] 8 (by decide),
    C9_normalisation.2.2 [1] 64 (by decide)⟩
  have h := (C9_normalisation.1 [32767]).1
  rw [h]
  rfl

/-! ### Claim C10: WASM pairwise averaging -/

/-- Claim C10: the WASM fingerprint entry points average every pair of
consecutive decoded `f32` samples whenever the decoded sample count is
even, regardless of channel count (none is consulted): an even-length
signal is halved, each output sample the mean of two adjacent inputs,
while an odd-length signal passes through unchanged. -/
theorem C10_wasm_downmix (audio : List ℚ) :
    (audio.length % 2 = 0 →
      ∃ out, wasmDownmix audio = some out
        ∧ out.length = audio.length / 2
        ∧ ∀ k < out.length,
            out.getD k 0 = (audio.getD (2 * k) 0 + audio.getD (2 * k + 1) 0) / 2)
    ∧ (audio.length % 2 = 1 → wasmDownmix audio = some audio) := by
  constructor
  · intro heven
    have main : ∀ (n : ℕ) (l : List ℚ), l.length ≤ n → l.length % 2 = 0 →
        ∃ out, avgPairs l = some out ∧ out.length = l.length / 2
          ∧ ∀ k < out.length,
              out.getD k 0 = (l.getD (2 * k) 0 + l.getD (2 * k + 1) 0) / 2 := by
      intro n
      induction n with
      | zero =>
        intro l hl _
        have : l = [] := List.length_eq_zero.mp (by omega)
        subst this
        exact ⟨[], rfl, rfl, by intro k hk; simp at hk⟩
      | succ n ih =>
        intro l hl hev
        match l with
        | [] => exact ⟨[], rfl, rfl, by intro k hk; simp at hk⟩
        | [a] => simp at hev
        | a :: b :: rest =>
          have hrest : rest.length ≤ n := by
            simp only [List.length_cons] at hl
            omega
          have hrev : rest.length % 2 = 0 := by
            simp only [List.length_cons] at hev
            omega
          obtain ⟨out, hout, hlen, hval⟩ := ih rest hrest hrev
          refine ⟨((a + b) / 2) :: out, ?_, ?_, ?_⟩
          · rw [avgPairs, hout]
          · simp only [List.length_cons, hlen]
            omega
          · intro k hk
            match k with
            | 0 => simp
            | k + 1 =>
              have hk' : k < out.length := by
                simp only [List.length_cons] at hk
                omega
              have h2 : 2 * (k + 1) = 2 * k + 2 := by ring
              have h3 : 2 * (k + 1) + 1 = 2 * k + 1 + 2 := by ring
              simp only [List.getD_cons_succ, h2, h3]
              simpa using hval k hk'
    rw [wasmDownmix, if_pos heven]
    exact main audio.length audio (le_refl _) heven
  · intro hodd
    rw [wasmDownmix, if_neg (by omega)]

/-- Witness for `C10_wasm_downmix` at the even input `[1, 3]` and (via a
second application) the odd input `[1, 2, 3]`. -/
theorem C10_wasm_downmix_witness :
    (∃ out, wasmDownmix [1, 3] = some out
      ∧ out.length = ([1, 3] : List ℚ).length / 2
      ∧ ∀ k < out.length,
          out.getD k 0 = (([1, 3] : List ℚ).getD (2 * k) 0
            + ([1, 3] : List ℚ).getD (2 * k + 1) 0) / 2)
    ∧ wasmDownmix [1, 2, 3] = some [1, 2, 3] :=
  ⟨(C10_wasm_downmix [1, 3]).1 (by decide),
   (C10_wasm_downmix [1, 2, 3]).2 (by decide)⟩
